import Mathlib

/-!
Verification of the MusicToy engine (`script/piece.js`, `script/music.js`,
and the Overdrive node) against its specification.

Modelling conventions:
* JavaScript numbers are modelled as exact rationals.  Playback times are
  modelled by `Time := WithTop ℚ`, whose `⊤` element plays the role of
  JavaScript's `Infinity` (used as the `playTime` sentinel by
  `Piece.prototype.stop`).  The arithmetic used by the code
  (`x + q`, comparisons) agrees with IEEE semantics on these values.
* A failing `assert(...)` is modelled by returning `none` / `Except.error`.
* `Note` objects are interned, one per note number, so object identity
  coincides with equality of note numbers; notes are therefore modelled by
  their number.
* The `while` loop of the binary search in `Track.prototype.dispatch` is
  modelled by the fuel-based recursion `findStartF`; the top-level entry
  `findStart` supplies `events.length + 1` fuel, which exceeds the maximal
  number of loop iterations (the search interval shrinks strictly at each
  iteration from an initial width of `events.length`).
-/

namespace MusicToy

/-- Playback time: a JavaScript number, possibly `Infinity` (`⊤`). -/
abbrev Time := WithTop ℚ

/-- Payload of a synthesis event (`SynthEvt` subclasses in piece.js):
note-on with note number and velocity, note-off with note number, or
all-notes-off. -/
inductive EvtData where
  | noteOn : Int → ℚ → EvtData
  | noteOff : Int → EvtData
  | allNotesOff : EvtData
deriving DecidableEq

/-- A synthesis event: an occurrence time plus its payload. -/
structure SynthEvt where
  time : Time
  data : EvtData
deriving DecidableEq

/-- `events[i].time`; the default value is irrelevant, every use in the
dispatch code is in bounds. -/
def timeAt (es : List SynthEvt) (i : Nat) : Time :=
  match es[i]? with
  | some e => e.time
  | none => 0

/-- The binary-search loop of `Track.prototype.dispatch` (piece.js,
lines 313-329).  `minI`/`maxI` mirror `minIdx`/`maxIdx` (`maxI` is an `Int`
because `maxIdx = midIdx - 1` can reach `-1`), `fuel` bounds the number of
iterations.  `some mid` models hitting the `break` with `midIdx = mid`,
`none` models leaving the loop with `minIdx > maxIdx` (no event to
dispatch).  The `midIdx = 0` disjunct models `leftTime = -Infinity`,
which compares `< prevTime` for every `prevTime`. -/
def findStartF (es : List SynthEvt) (prev : Time) :
    Nat → Nat → Int → Option Nat
  | 0, _, _ => none
  | fuel + 1, minI, maxI =>
    if (minI : Int) ≤ maxI then
      let mid := (minI + maxI.toNat) / 2
      if (mid = 0 ∨ timeAt es (mid - 1) < prev) ∧ prev ≤ timeAt es mid then
        some mid
      else if timeAt es mid < prev then
        findStartF es prev fuel (mid + 1) maxI
      else
        findStartF es prev fuel minI ((mid : Int) - 1)
    else none

/-- Entry point of the binary search: `minIdx = 0`,
`maxIdx = events.length - 1`. -/
def findStart (es : List SynthEvt) (prev : Time) : Option Nat :=
  findStartF es prev (es.length + 1) 0 ((es.length : Int) - 1)

/-- `Track.prototype.dispatch` (piece.js, lines 296-346), as the list of
events delivered to the target node, in delivery order: find the first
event with `time ≥ prevTime` by binary search, then deliver events in
order until one has `time ≥ curTime`. -/
def trackDispatch (es : List SynthEvt) (prev cur : Time) : List SynthEvt :=
  if es.length = 0 then []
  else
    match findStart es prev with
    | none => []
    | some mid => (es.drop mid).takeWhile (fun e => decide (e.time < cur))

/-- A `Track`: an optional target node (nodes are identified by an id)
and the event list. -/
structure Track where
  target : Option Nat
  events : List SynthEvt
deriving DecidableEq

/-- `Track.prototype.dispatch` including the `target === undefined`
early return. -/
def Track.dispatch (t : Track) (prev cur : Time) : List SynthEvt :=
  match t.target with
  | none => []
  | some _ => trackDispatch t.events prev cur

/-- The sort carried out by `this.events.sort(function (a, b) { return
a.time - b.time; })`: a stable sort by non-decreasing time. -/
def sortByTime (es : List SynthEvt) : List SynthEvt :=
  es.mergeSort (fun a b => decide (a.time ≤ b.time))

/-- `Track.prototype.addEvent` (piece.js, lines 278-290): push the event
(`es ++ [e]`); if the list had no other event or the new event's time is
`≥` the previous tail's time, stop; otherwise sort the whole list by
time. -/
def addEvent (es : List SynthEvt) (e : SynthEvt) : List SynthEvt :=
  if (es ++ [e]).length = 1 then es ++ [e]
  else if timeAt (es ++ [e]) ((es ++ [e]).length - 2) ≤ e.time then es ++ [e]
  else sortByTime (es ++ [e])

/-- The sortedness invariant of a track's event list: non-decreasing
occurrence times. -/
def timeSorted (es : List SynthEvt) : Prop :=
  List.Pairwise (fun a b => a.time ≤ b.time) es

instance (es : List SynthEvt) : Decidable (timeSorted es) := by
  unfold timeSorted; infer_instance

/-- A `Piece` (piece.js, lines 8-53).  The synthesis network is modelled by
the list of its node ids (`synthNet.nodes`), `none` when no network is
attached. -/
structure Piece where
  synthNet : Option (List Nat)
  tracks : List Track
  playTime : Time
  loopTime : Time
  prevTime : Time
  beatsPerMin : ℚ
  beatsPerBar : ℚ
  noteVal : ℚ
deriving DecidableEq

/-- `Piece.prototype.dispatch` (piece.js, lines 139-149): dispatch every
track over the window `[prevTime, curTime)`, then store `prevTime :=
curTime`.  Returns the updated piece and the delivered events (each track's
deliveries concatenated in track order; `realTime` is passed through to
`processEvent` and does not influence which events are delivered). -/
def Piece.dispatch (p : Piece) (cur _real : Time) : Piece × List SynthEvt :=
  ({ p with prevTime := cur },
   (p.tracks.map (fun t => Track.dispatch t p.prevTime cur)).flatten)

/-- `Piece.prototype.setTime`. -/
def Piece.setTime (p : Piece) (t : Time) : Piece :=
  { p with playTime := t }

/-- `Piece.prototype.stop` (piece.js, lines 154-167): deliver an
`AllNotesOff` event to every node of the attached network (none when no
network is attached), then set `playTime := Infinity`.  Returns the updated
piece and the list of (node id, event payload) deliveries. -/
def Piece.stop (p : Piece) : Piece × List (Nat × EvtData) :=
  ({ p with playTime := ⊤ },
   match p.synthNet with
   | some nodes => nodes.map (fun nd => (nd, EvtData.allNotesOff))
   | none => [])

/-- State of the `genAudio` closure created by `Piece.prototype.makeHandler`:
the piece plus the closure variables `curTime` and `realTime`. -/
structure GenState where
  piece : Piece
  curTime : Time
  realTime : Time
deriving DecidableEq

/-- One iteration of the per-quantum loop of `genAudio` (piece.js, lines
209-239), for a quantum of `q = SYNTH_BUF_SIZE / sampleRate` seconds:
resynchronise `curTime` with `playTime` if they differ, dispatch
`[prevTime, curTime)`, advance `curTime` and `realTime` by `q`, perform
the loop-wrap extra dispatch at `loopTime + 0.01` and reset `curTime` and
`prevTime` to `0` when `playTime ≤ loopTime < curTime`, and finally
publish `playTime := curTime`.  (Sample generation and copying affect
only audio buffers, not this state.)  Returns the new state and the list
of `(curTime, realTime, delivered events)` for each `Piece.dispatch`
call performed. -/
def genAudioStep (q : ℚ) (s : GenState) :
    GenState × List (Time × Time × List SynthEvt) :=
  let cur0 := if s.piece.playTime ≠ s.curTime then s.piece.playTime else s.curTime
  let d1 := Piece.dispatch s.piece cur0 s.realTime
  let p1 := d1.1
  let cur1 := cur0 + ((q : ℚ) : Time)
  let real1 := s.realTime + ((q : ℚ) : Time)
  if p1.playTime ≤ p1.loopTime ∧ p1.loopTime < cur1 then
    let wrapT := p1.loopTime + ((1 / 100 : ℚ) : Time)
    let d2 := Piece.dispatch p1 wrapT real1
    let p2 := { d2.1 with prevTime := 0, playTime := 0 }
    (⟨p2, 0, real1⟩, [(cur0, s.realTime, d1.2), (wrapT, real1, d2.2)])
  else
    (⟨{ p1 with playTime := cur1 }, cur1, real1⟩, [(cur0, s.realTime, d1.2)])

/-! ### music.js: the note model -/

/-- `NUM_NOTES`. -/
def NUM_NOTES : Int := 128

/-- `NOTES_PER_OCTAVE`. -/
def NOTES_PER_OCTAVE : Int := 12

/-- The `PC_NOTE_NAME` table (pitch class to name); pitch classes are
always in `[0, 12)` where this is used. -/
def pcName (pc : Nat) : String :=
  match pc with
  | 0 => "C" | 1 => "C#" | 2 => "D" | 3 => "D#" | 4 => "E" | 5 => "F"
  | 6 => "F#" | 7 => "G" | 8 => "G#" | 9 => "A" | 10 => "A#" | 11 => "B"
  | _ => ""

/-- The `NOTE_NAME_PC` table (name to pitch class); `none` models the
`undefined` result of a failed property lookup. -/
def NOTE_NAME_PC (s : String) : Option Nat :=
  if s = "C" then some 0 else if s = "C#" then some 1
  else if s = "D" then some 2 else if s = "D#" then some 3
  else if s = "E" then some 4 else if s = "F" then some 5
  else if s = "F#" then some 6 else if s = "G" then some 7
  else if s = "G#" then some 8 else if s = "A" then some 9
  else if s = "A#" then some 10 else if s = "B" then some 11
  else none

/-- The character class `[A-G]` with the `i` flag: an upper- or lower-case
letter between A and G. -/
def isNoteLetter (c : Char) : Bool :=
  ('A' ≤ c && c ≤ 'G') || ('a' ≤ c && c ≤ 'g')

/-- The character class `[0-9]`. -/
def isDigitCh (c : Char) : Bool :=
  '0' ≤ c && c ≤ '9'

/-- Numeric value of a digit character. -/
def digitVal (c : Char) : Nat :=
  c.toNat - '0'.toNat

/-- Decimal digit character for `d < 10`. -/
def digitChar (d : Nat) : Char :=
  match d with
  | 0 => '0' | 1 => '1' | 2 => '2' | 3 => '3' | 4 => '4'
  | 5 => '5' | 6 => '6' | 7 => '7' | 8 => '8' | _ => '9'

/-- Decimal digits of a natural number (`fuel`-bounded; `natToString`
supplies enough fuel). -/
def natDigitsAux : Nat → Nat → List Char
  | 0, _ => []
  | fuel + 1, n =>
    if n < 10 then [digitChar n]
    else natDigitsAux fuel (n / 10) ++ [digitChar (n % 10)]

/-- JavaScript `String(n)` for a non-negative integer. -/
def natToString (n : Nat) : String :=
  ⟨natDigitsAux (n + 1) n⟩

/-- JavaScript `String(i)` for an integer. -/
def intToString (i : Int) : String :=
  if i < 0 then "-" ++ natToString i.natAbs else natToString i.toNat

/-- `Note.prototype.getName` (music.js, lines 168-181): the pitch-class
name concatenated with `String(Math.floor(noteNo / 12) - 1)`. -/
def getName (n : Nat) : String :=
  pcName (n % 12) ++ intToString ((n / 12 : Nat) - 1 : Int)

/-- One attempted match of the regular expression `/([A-G]#?)([0-9])/i` at
the head of the character list: a letter, then either `#` followed by a
digit (the greedy `#?` branch) or directly a digit (its backtracking
alternative; when the second character is `#` but no digit follows, the
backtracking alternative also fails, because `#` is not a digit).
Returns the captured name part (with original case) and the parsed octave
digit. -/
def matchAtL : List Char → Option (String × Nat)
  | c :: rest =>
    if isNoteLetter c then
      match rest with
      | c2 :: rest2 =>
        if c2 = '#' then
          match rest2 with
          | d :: _ => if isDigitCh d then some (⟨[c, '#']⟩, digitVal d) else none
          | [] => none
        else if isDigitCh c2 then some (⟨[c]⟩, digitVal c2)
        else none
      | [] => none
    else none
  | [] => none

/-- `name.match(/([A-G]#?)([0-9])/i)`: the first position (scanning left to
right) where the pattern matches, or `none`. -/
def firstMatchL : List Char → Option (String × Nat)
  | [] => none
  | c :: rest =>
    match matchAtL (c :: rest) with
    | some r => some r
    | none => firstMatchL rest

/-- `Note.nameToNo` (music.js, lines 112-142): match the name against
`/([A-G]#?)([0-9])/i`, look the captured name part up in `NOTE_NAME_PC`,
and compute `(octave + 1) * 12 + pitchClass`.  The final range assert of
the source, `noteNo >= 0 || noteNo < NUM_NOTES`, is reproduced verbatim
(note the `||`).  `none` models a failed assertion. -/
def nameToNo (name : String) : Option Nat :=
  match firstMatchL name.toList with
  | none => none
  | some (namePart, octNo) =>
    match NOTE_NAME_PC namePart with
    | none => none
    | some pc =>
      let noteNo := (octNo + 1) * 12 + pc
      if (noteNo : Int) ≥ 0 ∨ (noteNo : Int) < NUM_NOTES then some noteNo
      else none

/-- `Note.prototype.offset` (music.js, lines 212-221): the note
`noteNo + numSemis`, provided it stays inside `[0, NUM_NOTES)`; `none`
models the failing `assert` (`InvalidNoteNumber`).  Because notes are
interned, the returned note is identified with its number. -/
def noteOffset (noteNo : Int) (numSemis : Int) : Option Int :=
  let offNo := noteNo + numSemis
  if 0 ≤ offNo ∧ offNo < NUM_NOTES then some offNo else none

/-- `Note.prototype.shift` (music.js, lines 226-228). -/
def noteShift (noteNo : Int) (numOcts : Int) : Option Int :=
  noteOffset noteNo (numOcts * NOTES_PER_OCTAVE)

/-- The `scaleIntervs` table (music.js, lines 237-256). -/
def scaleIntervs (s : String) : Option (List Nat) :=
  if s = "major" then some [2, 2, 1, 2, 2, 2]
  else if s = "natural minor" then some [2, 1, 2, 2, 1, 2]
  else if s = "major pentatonic" then some [2, 2, 3, 2]
  else if s = "minor pentatonic" then some [3, 2, 2, 3]
  else if s = "blues" then some [3, 2, 1, 1, 3]
  else if s = "chromatic" then some [1, 1, 1, 1, 1, 1, 1, 1, 1, 1]
  else none

/-- Error taxonomy for the note model. -/
inductive MusicErr where
  | invalidNoteNumber : MusicErr
  | unknownScale : MusicErr
deriving DecidableEq

/-- The inner loop of `genScale`: starting from the previously pushed note,
push `prevNote.offset(interv)` for each interval. -/
def chainFrom (prev : Int) : List Nat → Except MusicErr (List Int)
  | [] => .ok []
  | i :: rest =>
    match noteOffset prev (i : Int) with
    | none => .error .invalidNoteNumber
    | some nxt =>
      match chainFrom nxt rest with
      | .error e => .error e
      | .ok l => .ok (nxt :: l)

/-- The octave loop of `genScale`: for each remaining octave (`count` of
them, the next having index `octNo`), push `rootNote.shift(octNo)` and then
the chained scale notes. -/
def genOcts (rootNote : Int) (intervs : List Nat) :
    Nat → Nat → Except MusicErr (List Int)
  | 0, _ => .ok []
  | count + 1, octNo =>
    match noteShift rootNote (octNo : Int) with
    | none => .error .invalidNoteNumber
    | some octRoot =>
      match chainFrom octRoot intervs with
      | .error e => .error e
      | .ok block =>
        match genOcts rootNote intervs count (octNo + 1) with
        | .error e => .error e
        | .ok rest => .ok (octRoot :: block ++ rest)

/-- `genScale` (music.js, lines 261-300): look up the interval pattern
(`UnknownScale` when absent), run the octave loop, and append
`rootNote.shift(numOctaves)` as the note closing the last octave. -/
def genScale (rootNote : Int) (scale : String) (numOctaves : Nat) :
    Except MusicErr (List Int) :=
  match scaleIntervs scale with
  | none => .error .unknownScale
  | some intervs =>
    match genOcts rootNote intervs numOctaves 0 with
    | .error e => .error e
    | .ok notes =>
      match noteShift rootNote (numOctaves : Int) with
      | none => .error .invalidNoteNumber
      | some closing => .ok (notes ++ [closing])

/-! ### The Overdrive distortion node -/

/-- Parameters of the `Overdrive` node. -/
structure Overdrive where
  gain : ℚ
  threshold : ℚ
  factor : ℚ
deriving DecidableEq

/-- The per-sample computation of `Overdrive.prototype.update`:
`s := input * gain`; if `|s| - threshold > 0`, the part of `|s|` exceeding
the threshold is scaled by `1 / factor` and the original sign of `s` is
reapplied. -/
def distortSample (od : Overdrive) (s0 : ℚ) : ℚ :=
  let s := s0 * od.gain
  let absS := |s|
  let d := absS - od.threshold
  if d > 0 then
    let f := 1 / od.factor
    let absS' := (absS - d) + f * d
    if s > 0 then absS' else -absS'
  else s

/-- `Overdrive.prototype.update` for one quantum: when the input port has
no data the output buffer is returned untouched; otherwise `outBuf[i]` is
overwritten with the distorted `inBuf[i]` for each input sample. -/
def Overdrive.update (od : Overdrive) (input : Option (List ℚ))
    (outBuf : List ℚ) : List ℚ :=
  match input with
  | none => outBuf
  | some inBuf => inBuf.map (distortSample od) ++ outBuf.drop inBuf.length

/-! ### Definitions taken from the specification's words (for comparison
with the code-derived definitions above) -/

/-- The note-name grammar claimed by the specification:
`^[A-Ga-g]#?-?[0-9]+$`. -/
def specNoteGrammar (s : String) : Bool :=
  match s.toList with
  | [] => false
  | c :: rest =>
    let r1 := match rest with
      | '#' :: t => t
      | l => l
    let r2 := match r1 with
      | '-' :: t => t
      | l => l
    isNoteLetter c && decide (r2 ≠ []) && r2.all isDigitCh

/-- Declarative description of one successful match attempt of
`/([A-G]#?)([0-9])/i` at the head of a character list: a pitch letter
followed either directly by a digit, or by `#` and then a digit. -/
def matchSpecHead (l : List Char) : Prop :=
  (∃ c, l[0]? = some c ∧ isNoteLetter c = true) ∧
  ((∃ d, l[1]? = some d ∧ isDigitCh d = true) ∨
   (l[1]? = some '#' ∧ ∃ d, l[2]? = some d ∧ isDigitCh d = true))

/-- Declarative description of a successful parse at the head of a
character list, together with the note number it produces: the captured
name part (letter, possibly with `#`) must be a key of `NOTE_NAME_PC`,
and the note number is `(octaveDigit + 1) * 12 + pitchClass`. -/
def matchResult (l : List Char) (n : Nat) : Prop :=
  ∃ c, l[0]? = some c ∧ isNoteLetter c = true ∧
    ((∃ d pc, l[1]? = some d ∧ isDigitCh d = true ∧
        NOTE_NAME_PC ⟨[c]⟩ = some pc ∧ n = (digitVal d + 1) * 12 + pc) ∨
     (∃ d pc, l[1]? = some '#' ∧ l[2]? = some d ∧ isDigitCh d = true ∧
        NOTE_NAME_PC ⟨[c, '#']⟩ = some pc ∧ n = (digitVal d + 1) * 12 + pc))

/-- Specification of the scale chaining: the successive notes obtained by
offsetting the previous note by each interval in turn. -/
def specChain (start : Int) : List Nat → List Int
  | [] => []
  | i :: rest => (start + i) :: specChain (start + i) rest

/-- Specification of the octave loop: for each of `count` octaves starting
at octave index `o`, the octave's root (`root` raised by `o` octaves)
followed by the chained scale notes. -/
def specOcts (root : Int) (intervs : List Nat) (o count : Nat) : List Int :=
  match count with
  | 0 => []
  | k + 1 =>
    (root + 12 * o) :: (specChain (root + 12 * o) intervs ++ specOcts root intervs (o + 1) k)

/-- Specification of `generateScale`: the per-octave blocks followed by the
closing note exactly `numOctaves` octaves above the root. -/
def specScale (root : Int) (intervs : List Nat) (numOctaves : Nat) : List Int :=
  specOcts root intervs 0 numOctaves ++ [root + 12 * numOctaves]

/-! ### Correctness of the dispatch binary search -/

lemma timeAt_eq (es : List SynthEvt) (i : Nat) (h : i < es.length) :
    timeAt es i = es[i].time := by
  simp [timeAt, List.getElem?_eq_getElem h]

lemma timeAt_mono (es : List SynthEvt) (hs : timeSorted es) :
    ∀ i j, i ≤ j → j < es.length → timeAt es i ≤ timeAt es j := by
  intro i j hij hj
  rcases Nat.eq_or_lt_of_le hij with rfl | hlt
  · exact le_refl _
  · have hi : i < es.length := lt_trans hlt hj
    rw [timeAt_eq es i hi, timeAt_eq es j hj]
    exact (List.pairwise_iff_getElem.mp hs) i j hi hj hlt

lemma findStartF_spec (es : List SynthEvt) (prev : Time)
    (hmono : ∀ i j, i ≤ j → j < es.length → timeAt es i ≤ timeAt es j) :
    ∀ (fuel : Nat) (minI : Nat) (maxI : Int),
      (maxI + 1 - minI).toNat < fuel →
      maxI < (es.length : Int) →
      (∀ j : Nat, j < minI → timeAt es j < prev) →
      (maxI = (es.length : Int) - 1 ∨ (0 ≤ maxI ∧ prev ≤ timeAt es maxI.toNat)) →
      (match findStartF es prev fuel minI maxI with
       | some mid =>
           mid < es.length ∧ prev ≤ timeAt es mid ∧ ∀ j, j < mid → timeAt es j < prev
       | none => ∀ j, j < es.length → timeAt es j < prev) := by
  intro fuel
  induction fuel with
  | zero =>
    intro minI maxI hfuel _ _ _
    exact absurd hfuel (Nat.not_lt_zero _)
  | succ fuel ih =>
    intro minI maxI hfuel hmax hinv1 hinv3
    simp only [findStartF]
    by_cases hle : (minI : Int) ≤ maxI
    · rw [if_pos hle]
      set mid := (minI + maxI.toNat) / 2 with hmiddef
      have hmaxnn : 0 ≤ maxI := le_trans (Int.ofNat_nonneg minI) hle
      have hminmax : minI ≤ maxI.toNat := by omega
      have hmid_ge : minI ≤ mid := by rw [hmiddef]; omega
      have hmid_le : mid ≤ maxI.toNat := by rw [hmiddef]; omega
      have hmidlen : mid < es.length := by omega
      by_cases hbrk : (mid = 0 ∨ timeAt es (mid - 1) < prev) ∧ prev ≤ timeAt es mid
      · rw [if_pos hbrk]
        refine ⟨hmidlen, hbrk.2, ?_⟩
        intro j hj
        rcases hbrk.1 with h0 | hless
        · omega
        · exact lt_of_le_of_lt (hmono j (mid - 1) (by omega) (by omega)) hless
      · rw [if_neg hbrk]
        by_cases hlt : timeAt es mid < prev
        · rw [if_pos hlt]
          refine ih (mid + 1) maxI (by omega) hmax ?_ hinv3
          intro j hj
          exact lt_of_le_of_lt (hmono j mid (by omega) hmidlen) hlt
        · rw [if_neg hlt]
          have hmidge : prev ≤ timeAt es mid := not_lt.mp hlt
          have hnotor : ¬(mid = 0 ∨ timeAt es (mid - 1) < prev) := fun h => hbrk ⟨h, hmidge⟩
          push_neg at hnotor
          obtain ⟨hmid0, hprevle⟩ := hnotor
          refine ih minI ((mid : Int) - 1) (by omega) (by omega) hinv1 (Or.inr ⟨by omega, ?_⟩)
          have : ((mid : Int) - 1).toNat = mid - 1 := by omega
          rw [this]
          exact hprevle
    · rw [if_neg hle]
      intro j hj
      rcases hinv3 with hml | ⟨hnn, hple⟩
      · exact hinv1 j (by omega)
      · exact absurd hple (not_le.mpr (hinv1 maxI.toNat (by omega)))

lemma takeWhile_eq_filter_lt (cur : Time) :
    ∀ xs : List SynthEvt, List.Pairwise (fun a b => a.time ≤ b.time) xs →
      xs.takeWhile (fun e => decide (e.time < cur))
        = xs.filter (fun e => decide (e.time < cur)) := by
  intro xs
  induction xs with
  | nil => intro _; rfl
  | cons x rest ih =>
    intro hp
    rcases List.pairwise_cons.mp hp with ⟨hx, hrest⟩
    by_cases hcur : x.time < cur
    · simp only [List.takeWhile_cons, List.filter_cons, hcur, decide_True, if_true]
      rw [ih hrest]
    · simp only [List.takeWhile_cons, List.filter_cons, hcur, decide_False,
        Bool.false_eq_true, if_false]
      symm
      rw [List.filter_eq_nil_iff]
      intro a ha
      simp only [decide_eq_true_eq]
      exact fun h => hcur (lt_of_le_of_lt (hx a ha) h)

lemma trackDispatch_eq_filter (es : List SynthEvt) (prev cur : Time)
    (hs : timeSorted es) :
    trackDispatch es prev cur
      = es.filter (fun e => decide (prev ≤ e.time ∧ e.time < cur)) := by
  unfold trackDispatch
  by_cases h0 : es.length = 0
  · rw [if_pos h0, List.length_eq_zero.mp h0]
    rfl
  · rw [if_neg h0]
    have hspec := findStartF_spec es prev (timeAt_mono es hs) (es.length + 1) 0
      ((es.length : Int) - 1) (by omega) (by omega) (by omega) (Or.inl rfl)
    unfold findStart
    cases hfs : findStartF es prev (es.length + 1) 0 ((es.length : Int) - 1) with
    | none =>
      rw [hfs] at hspec
      symm
      rw [List.filter_eq_nil_iff]
      intro a ha
      obtain ⟨n, hn, rfl⟩ := List.getElem_of_mem ha
      simp only [decide_eq_true_eq, not_and]
      intro hple
      have := hspec n hn
      rw [timeAt_eq es n hn] at this
      exact absurd hple (not_le.mpr this)
    | some mid =>
      rw [hfs] at hspec
      obtain ⟨hmidlen, hmidge, hbefore⟩ := hspec
      show (es.drop mid).takeWhile (fun e => decide (e.time < cur))
        = es.filter (fun e => decide (prev ≤ e.time ∧ e.time < cur))
      conv_rhs => rw [← List.take_append_drop mid es]
      rw [List.filter_append]
      have htake : (es.take mid).filter
          (fun e => decide (prev ≤ e.time ∧ e.time < cur)) = [] := by
        rw [List.filter_eq_nil_iff]
        intro a ha
        obtain ⟨n, hn, rfl⟩ := List.getElem_of_mem ha
        have hnlen : n < es.length := by
          have := hn
          simp only [List.length_take] at this
          omega
        have hnmid : n < mid := by
          have := hn
          simp only [List.length_take] at this
          omega
        have hgete : (es.take mid)[n] = es[n] := List.getElem_take es
        simp only [decide_eq_true_eq, not_and, hgete]
        intro hple
        have := hbefore n hnmid
        rw [timeAt_eq es n hnlen] at this
        exact absurd hple (not_le.mpr this)
      rw [htake, List.nil_append]
      have hdropsorted : List.Pairwise (fun a b : SynthEvt => a.time ≤ b.time)
          (es.drop mid) := List.Pairwise.sublist (List.drop_sublist mid es) hs
      rw [takeWhile_eq_filter_lt cur (es.drop mid) hdropsorted]
      apply List.filter_congr
      intro a ha
      obtain ⟨k, hk, rfl⟩ := List.getElem_of_mem ha
      have hklen : mid + k < es.length := by
        have := hk
        simp only [List.length_drop] at this
        omega
      have hgete : (es.drop mid)[k] = es[mid + k] := List.getElem_drop es
      have hge : prev ≤ ((es.drop mid)[k]).time := by
        rw [hgete, ← timeAt_eq es (mid + k) hklen]
        exact le_trans hmidge
          (timeAt_mono es hs mid (mid + k) (Nat.le_add_right _ _) hklen)
      rw [hgete] at hge
      by_cases hc : (es[mid + k]).time < cur
      · simp [hgete, hc, hge]
      · simp [hgete, hc]

/-- Claim C1: for every track with a target node and a time-sorted event
sequence, `Track.dispatch(prevTime, curTime, realTime)` delivers to the
target exactly the events with time in the half-open window
`[prevTime, curTime)` — each exactly once, in ascending time order (the
delivered list is the filtered event list, in order) — and nothing
else. -/
theorem track_dispatch_window (t : Track) (prev cur : Time)
    (htgt : t.target ≠ none) (hs : timeSorted t.events) :
    Track.dispatch t prev cur
      = t.events.filter (fun e => decide (prev ≤ e.time ∧ e.time < cur)) := by
  unfold Track.dispatch
  cases h : t.target with
  | none => exact absurd h htgt
  | some nd => exact trackDispatch_eq_filter t.events prev cur hs

/-- Witness for C1, on events at times `[1, 2, 5]`: `dispatch(0,3)` then
`dispatch(3,6)` deliver all three events exactly once each, in time order,
and `dispatch(0,4)` followed by `dispatch(4,4)` re-delivers nothing. -/
theorem track_dispatch_window_witness :
    Track.dispatch ⟨some 0, [⟨((1 : ℚ) : Time), .noteOff 1⟩,
        ⟨((2 : ℚ) : Time), .noteOff 2⟩, ⟨((5 : ℚ) : Time), .noteOff 5⟩]⟩
        ((0 : ℚ) : Time) ((3 : ℚ) : Time)
      = [⟨((1 : ℚ) : Time), .noteOff 1⟩, ⟨((2 : ℚ) : Time), .noteOff 2⟩] ∧
    Track.dispatch ⟨some 0, [⟨((1 : ℚ) : Time), .noteOff 1⟩,
        ⟨((2 : ℚ) : Time), .noteOff 2⟩, ⟨((5 : ℚ) : Time), .noteOff 5⟩]⟩
        ((3 : ℚ) : Time) ((6 : ℚ) : Time)
      = [⟨((5 : ℚ) : Time), .noteOff 5⟩] ∧
    Track.dispatch ⟨some 0, [⟨((1 : ℚ) : Time), .noteOff 1⟩,
        ⟨((2 : ℚ) : Time), .noteOff 2⟩, ⟨((5 : ℚ) : Time), .noteOff 5⟩]⟩
        ((0 : ℚ) : Time) ((4 : ℚ) : Time)
      = [⟨((1 : ℚ) : Time), .noteOff 1⟩, ⟨((2 : ℚ) : Time), .noteOff 2⟩] ∧
    Track.dispatch ⟨some 0, [⟨((1 : ℚ) : Time), .noteOff 1⟩,
        ⟨((2 : ℚ) : Time), .noteOff 2⟩, ⟨((5 : ℚ) : Time), .noteOff 5⟩]⟩
        ((4 : ℚ) : Time) ((4 : ℚ) : Time)
      = [] :=
  ⟨(track_dispatch_window _ _ _ (by decide) (by decide)).trans (by decide),
   (track_dispatch_window _ _ _ (by decide) (by decide)).trans (by decide),
   (track_dispatch_window _ _ _ (by decide) (by decide)).trans (by decide),
   (track_dispatch_window _ _ _ (by decide) (by decide)).trans (by decide)⟩

/-! ### Sortedness of `addEvent` -/

lemma sortByTime_sorted (es : List SynthEvt) : timeSorted (sortByTime es) := by
  unfold timeSorted sortByTime
  refine List.Pairwise.imp ?_ (List.sorted_mergeSort ?_ ?_ es)
  · intro a b hab
    simpa using hab
  · intro a b c hab hbc
    simp only [decide_eq_true_eq] at *
    exact le_trans hab hbc
  · intro a b
    simpa using le_total a.time b.time

lemma getLast?_timeAt (es : List SynthEvt) (l : SynthEvt)
    (hl : es.getLast? = some l) :
    0 < es.length ∧ timeAt es (es.length - 1) = l.time := by
  cases es with
  | nil => simp at hl
  | cons x xs =>
    have hlen : (x :: xs).length - 1 < (x :: xs).length := by simp
    refine ⟨by simp, ?_⟩
    rw [timeAt_eq _ _ hlen]
    rw [List.getLast?_eq_getElem? (x :: xs), List.getElem?_eq_getElem hlen] at hl
    exact congrArg SynthEvt.time (Option.some.inj hl)

lemma le_getLast_of_timeSorted (es : List SynthEvt) (l : SynthEvt)
    (hs : timeSorted es) (hl : es.getLast? = some l) :
    ∀ a ∈ es, a.time ≤ l.time := by
  intro a ha
  obtain ⟨hpos, hts⟩ := getLast?_timeAt es l hl
  obtain ⟨n, hn, rfl⟩ := List.getElem_of_mem ha
  rw [← hts, ← timeAt_eq es n hn]
  exact timeAt_mono es hs n (es.length - 1) (by omega) (by omega)

lemma timeAt_append_tail (es : List SynthEvt) (e : SynthEvt)
    (hpos : 0 < es.length) :
    timeAt (es ++ [e]) ((es ++ [e]).length - 2) = timeAt es (es.length - 1) := by
  have hidx : (es ++ [e]).length - 2 = es.length - 1 := by simp
  rw [hidx]
  unfold timeAt
  rw [List.getElem?_append_left (by omega)]

/-- Claim C6: after `Track.add(event)` the event sequence is again sorted by
non-decreasing time; when the new event's time is `≥` the previous tail's
time it is appended in place, and otherwise the whole sequence is re-sorted
by time. -/
theorem addEvent_sorted (es : List SynthEvt) (e : SynthEvt)
    (hs : timeSorted es) :
    timeSorted (addEvent es e) ∧
    (∀ l, es.getLast? = some l → l.time ≤ e.time → addEvent es e = es ++ [e]) ∧
    (∀ l, es.getLast? = some l → e.time < l.time →
        addEvent es e = sortByTime (es ++ [e])) := by
  refine ⟨?_, ?_, ?_⟩
  · unfold addEvent
    by_cases h1 : (es ++ [e]).length = 1
    · rw [if_pos h1]
      have hnil : es = [] := by
        rw [List.length_append] at h1
        exact List.length_eq_zero.mp (by simpa using h1)
      subst hnil
      simp [timeSorted]
    · rw [if_neg h1]
      by_cases h2 : timeAt (es ++ [e]) ((es ++ [e]).length - 2) ≤ e.time
      · rw [if_pos h2]
        have hpos : 0 < es.length := by
          rw [List.length_append, List.length_singleton] at h1
          omega
        have hlast : es.getLast? = some es[es.length - 1] := by
          rw [List.getLast?_eq_getElem? es, List.getElem?_eq_getElem (by omega)]
        rw [timeAt_append_tail es e hpos] at h2
        rw [(getLast?_timeAt es es[es.length - 1] hlast).2] at h2
        unfold timeSorted
        rw [List.pairwise_append]
        refine ⟨hs, List.pairwise_singleton _ _, ?_⟩
        intro a ha b hb
        rw [List.mem_singleton] at hb
        subst hb
        exact le_trans (le_getLast_of_timeSorted es _ hs hlast a ha) h2
      · rw [if_neg h2]
        exact sortByTime_sorted _
  · intro l hl hle
    obtain ⟨hpos, hts⟩ := getLast?_timeAt es l hl
    unfold addEvent
    rw [if_neg (by simp only [List.length_append, List.length_singleton]; omega)]
    rw [if_pos (by rw [timeAt_append_tail es e hpos, hts]; exact hle)]
  · intro l hl hlt
    obtain ⟨hpos, hts⟩ := getLast?_timeAt es l hl
    unfold addEvent
    rw [if_neg (by simp only [List.length_append, List.length_singleton]; omega)]
    rw [if_neg (by rw [timeAt_append_tail es e hpos, hts]; exact not_le.mpr hlt)]

/-- Witness for C6: the in-order append case and the sortedness of an
out-of-order insertion. -/
theorem addEvent_sorted_witness :
    timeSorted (addEvent [⟨((1 : ℚ) : Time), .noteOff 1⟩,
        ⟨((3 : ℚ) : Time), .noteOff 3⟩] ⟨((2 : ℚ) : Time), .noteOff 2⟩) ∧
    addEvent [⟨((1 : ℚ) : Time), .noteOff 1⟩] ⟨((2 : ℚ) : Time), .noteOff 2⟩
      = [⟨((1 : ℚ) : Time), .noteOff 1⟩, ⟨((2 : ℚ) : Time), .noteOff 2⟩] :=
  ⟨(addEvent_sorted _ _ (by decide)).1,
   (addEvent_sorted [⟨((1 : ℚ) : Time), .noteOff 1⟩]
       ⟨((2 : ℚ) : Time), .noteOff 2⟩ (by decide)).2.1
     ⟨((1 : ℚ) : Time), .noteOff 1⟩ (by decide) (by decide)⟩

/-- Claim C10: `Piece.dispatch(curTime, realTime)` modifies only the
piece's `prevTime` field (setting it to `curTime`); `playTime`,
`loopTime`, the tempo and time-signature fields, the attached network and
the owned tracks (hence every track's event sequence) are unchanged. -/
theorem piece_dispatch_frame (p : Piece) (cur real : Time) :
    (Piece.dispatch p cur real).1.playTime = p.playTime ∧
    (Piece.dispatch p cur real).1.loopTime = p.loopTime ∧
    (Piece.dispatch p cur real).1.beatsPerMin = p.beatsPerMin ∧
    (Piece.dispatch p cur real).1.beatsPerBar = p.beatsPerBar ∧
    (Piece.dispatch p cur real).1.noteVal = p.noteVal ∧
    (Piece.dispatch p cur real).1.synthNet = p.synthNet ∧
    (Piece.dispatch p cur real).1.tracks = p.tracks ∧
    (Piece.dispatch p cur real).1.prevTime = cur :=
  ⟨rfl, rfl, rfl, rfl, rfl, rfl, rfl, rfl⟩

/-! ### The loop wrap of `genAudio` -/

lemma genAudioStep_no_wrap (q : ℚ) (s : GenState) (cur0 : Time)
    (hcur0 : (if s.piece.playTime ≠ s.curTime then s.piece.playTime
      else s.curTime) = cur0)
    (h : ¬(s.piece.playTime ≤ s.piece.loopTime ∧
        s.piece.loopTime < cur0 + ((q : ℚ) : Time))) :
    genAudioStep q s =
      (⟨{ s.piece with prevTime := cur0, playTime := cur0 + ((q : ℚ) : Time) },
        cur0 + ((q : ℚ) : Time), s.realTime + ((q : ℚ) : Time)⟩,
       [(cur0, s.realTime,
         (s.piece.tracks.map
           (fun t => Track.dispatch t s.piece.prevTime cur0)).flatten)]) := by
  unfold genAudioStep Piece.dispatch
  dsimp only
  rw [hcur0, if_neg h]

lemma genAudioStep_wrap (q : ℚ) (s : GenState) (cur0 : Time)
    (hcur0 : (if s.piece.playTime ≠ s.curTime then s.piece.playTime
      else s.curTime) = cur0)
    (h : s.piece.playTime ≤ s.piece.loopTime ∧
        s.piece.loopTime < cur0 + ((q : ℚ) : Time)) :
    genAudioStep q s =
      (⟨{ s.piece with prevTime := 0, playTime := 0 }, 0,
        s.realTime + ((q : ℚ) : Time)⟩,
       [(cur0, s.realTime,
         (s.piece.tracks.map
           (fun t => Track.dispatch t s.piece.prevTime cur0)).flatten),
        (s.piece.loopTime + ((1 / 100 : ℚ) : Time),
         s.realTime + ((q : ℚ) : Time),
         (s.piece.tracks.map (fun t => Track.dispatch t cur0
           (s.piece.loopTime + ((1 / 100 : ℚ) : Time)))).flatten)]) := by
  unfold genAudioStep Piece.dispatch
  dsimp only
  rw [hcur0, if_pos h]

lemma genAudioStep_realTime (q : ℚ) (s : GenState) :
    (genAudioStep q s).1.realTime = s.realTime + ((q : ℚ) : Time) := by
  by_cases h : s.piece.playTime ≤ s.piece.loopTime ∧
      s.piece.loopTime < (if s.piece.playTime ≠ s.curTime
        then s.piece.playTime else s.curTime) + ((q : ℚ) : Time)
  · rw [genAudioStep_wrap q s _ rfl h]
  · rw [genAudioStep_no_wrap q s _ rfl h]

/-- Claim C7: when `playTime` was at or before `loopTime` before the
quantum step and `curTime` has passed `loopTime` after it, the step
performs one extra dispatch at `loopTime + 0.01` with the advanced,
pre-wrap `realTime`, then resets `curTime`, `prevTime` (and the published
`playTime`) to `0`, while `realTime` is not reset; in every quantum step,
wrap or not, `realTime` advances by exactly `q = quantum / sampleRate`. -/
theorem genAudio_loop_wrap (q : ℚ) (s : GenState)
    (hsync : s.piece.playTime = s.curTime)
    (hloop : s.piece.playTime ≤ s.piece.loopTime)
    (hpass : s.piece.loopTime < s.curTime + ((q : ℚ) : Time)) :
    (∃ ev1 ev2,
      (genAudioStep q s).2 =
        [(s.curTime, s.realTime, ev1),
         (s.piece.loopTime + ((1 / 100 : ℚ) : Time),
          s.realTime + ((q : ℚ) : Time), ev2)]) ∧
    (genAudioStep q s).1.curTime = 0 ∧
    (genAudioStep q s).1.piece.prevTime = 0 ∧
    (genAudioStep q s).1.piece.playTime = 0 ∧
    (genAudioStep q s).1.realTime = s.realTime + ((q : ℚ) : Time) ∧
    (∀ (r : ℚ) (u : GenState),
      (genAudioStep r u).1.realTime = u.realTime + ((r : ℚ) : Time)) := by
  have hcur0 : (if s.piece.playTime ≠ s.curTime then s.piece.playTime
      else s.curTime) = s.curTime := by
    rw [hsync, ite_self]
  have hw := genAudioStep_wrap q s s.curTime hcur0 ⟨hloop, hpass⟩
  rw [hw]
  exact ⟨⟨_, _, rfl⟩, rfl, rfl, rfl, rfl, genAudioStep_realTime⟩

unseal Rat.add Rat.mul Rat.sub Rat.inv in
/-- Witness for C7, with `loopTime = 2` and the clock stepping across
`2 → 2.1` in one quantum (`q = 1/10`): the extra dispatch happens at
`2 + 0.01` with the advanced `realTime`, and the state resets to `0`
while `realTime` advances from `7` to `7 + 1/10`. -/
theorem genAudio_loop_wrap_witness :
    (∃ ev1 ev2,
      (genAudioStep (1 / 10) ⟨⟨none, [], ((2 : ℚ) : Time), ((2 : ℚ) : Time),
          ((1 : ℚ) : Time), 140, 4, 4⟩, ((2 : ℚ) : Time), ((7 : ℚ) : Time)⟩).2 =
        [(((2 : ℚ) : Time), ((7 : ℚ) : Time), ev1),
         (((2 : ℚ) : Time) + ((1 / 100 : ℚ) : Time),
          ((7 : ℚ) : Time) + ((1 / 10 : ℚ) : Time), ev2)]) ∧
    (genAudioStep (1 / 10) ⟨⟨none, [], ((2 : ℚ) : Time), ((2 : ℚ) : Time),
        ((1 : ℚ) : Time), 140, 4, 4⟩, ((2 : ℚ) : Time), ((7 : ℚ) : Time)⟩).1.curTime
      = 0 ∧
    (genAudioStep (1 / 10) ⟨⟨none, [], ((2 : ℚ) : Time), ((2 : ℚ) : Time),
        ((1 : ℚ) : Time), 140, 4, 4⟩, ((2 : ℚ) : Time),
        ((7 : ℚ) : Time)⟩).1.piece.prevTime = 0 ∧
    (genAudioStep (1 / 10) ⟨⟨none, [], ((2 : ℚ) : Time), ((2 : ℚ) : Time),
        ((1 : ℚ) : Time), 140, 4, 4⟩, ((2 : ℚ) : Time),
        ((7 : ℚ) : Time)⟩).1.realTime
      = ((7 : ℚ) : Time) + ((1 / 10 : ℚ) : Time) := by
  have h := genAudio_loop_wrap (1 / 10)
    ⟨⟨none, [], ((2 : ℚ) : Time), ((2 : ℚ) : Time),
      ((1 : ℚ) : Time), 140, 4, 4⟩, ((2 : ℚ) : Time), ((7 : ℚ) : Time)⟩
    (by decide) (by decide) (by decide)
  exact ⟨h.1, h.2.1, h.2.2.1, h.2.2.2.2.1⟩

/-! ### Behaviour after `stop()` -/

lemma findStartF_none_of_all_lt (es : List SynthEvt) (prev : Time)
    (hall : ∀ j, j < es.length → timeAt es j < prev) :
    ∀ (fuel : Nat) (minI : Nat) (maxI : Int), maxI < (es.length : Int) →
      findStartF es prev fuel minI maxI = none := by
  intro fuel
  induction fuel with
  | zero => intro minI maxI hmax; rfl
  | succ fuel ih =>
    intro minI maxI hmax
    simp only [findStartF]
    by_cases hle : (minI : Int) ≤ maxI
    · rw [if_pos hle]
      set mid := (minI + maxI.toNat) / 2 with hmiddef
      have hmaxnn : 0 ≤ maxI := le_trans (Int.ofNat_nonneg minI) hle
      have hmidlen : mid < es.length := by rw [hmiddef]; omega
      have hmidlt := hall mid hmidlen
      rw [if_neg (fun hbrk => absurd hmidlt (not_lt.mpr hbrk.2))]
      rw [if_pos hmidlt]
      exact ih _ _ hmax
    · rw [if_neg hle]

lemma trackDispatch_top_prev (es : List SynthEvt) (cur : Time)
    (hfin : ∀ e ∈ es, e.time ≠ ⊤) :
    trackDispatch es ⊤ cur = [] := by
  unfold trackDispatch
  by_cases h0 : es.length = 0
  · rw [if_pos h0]
  · rw [if_neg h0]
    unfold findStart
    rw [findStartF_none_of_all_lt es ⊤ ?_ _ _ _ (by omega)]
    intro j hj
    rw [timeAt_eq es j hj]
    exact lt_top_iff_ne_top.mpr (hfin _ (List.getElem_mem _))

/-- Claim C2 (amended): `stop()` delivers an AllNotesOff event directly to
every node of the attached graph and sets `playTime` to the `Infinity`
sentinel.  A state whose `playTime` is the sentinel keeps it (and sets
`prevTime` to it) across every quantum step, leaving the tracks untouched;
once `prevTime` is also the sentinel — i.e. from the second post-stop
quantum on — a step delivers no track event (the first post-stop quantum,
however, dispatches the window `[prevTime, ∞)`, delivering every pending
event once; see the counterexample).  `setTime` is the only operation that
moves `playTime` off the sentinel. -/
theorem stop_silences (p : Piece) (q : ℚ) (s : GenState) :
    (Piece.stop p).1.playTime = ⊤ ∧
    (∀ nodes, p.synthNet = some nodes →
      (Piece.stop p).2 = nodes.map (fun nd => (nd, EvtData.allNotesOff))) ∧
    (s.piece.playTime = ⊤ →
      (genAudioStep q s).1.piece.playTime = ⊤ ∧
      (genAudioStep q s).1.piece.prevTime = ⊤ ∧
      (genAudioStep q s).1.piece.tracks = s.piece.tracks ∧
      (s.piece.prevTime = ⊤ →
        (∀ tr ∈ s.piece.tracks, ∀ e ∈ tr.events, e.time ≠ ⊤) →
        ((genAudioStep q s).2.map (fun c => c.2.2)).flatten = [])) := by
  refine ⟨rfl, ?_, ?_⟩
  · intro nodes hn
    unfold Piece.stop
    rw [hn]
  · intro hplay
    have hcur0 : (if s.piece.playTime ≠ s.curTime then s.piece.playTime
        else s.curTime) = ⊤ := by
      by_cases h : s.piece.playTime ≠ s.curTime
      · rw [if_pos h, hplay]
      · rw [if_neg h]
        push_neg at h
        rw [← h, hplay]
    have hnowrap : ¬(s.piece.playTime ≤ s.piece.loopTime ∧
        s.piece.loopTime < (⊤ : Time) + ((q : ℚ) : Time)) := by
      rintro ⟨h1, h2⟩
      rw [hplay] at h1
      rw [top_le_iff.mp h1, top_add] at h2
      exact absurd h2 (lt_irrefl _)
    rw [genAudioStep_no_wrap q s ⊤ hcur0 hnowrap]
    refine ⟨top_add _, rfl, rfl, ?_⟩
    intro hprev hfin
    simp only [List.map_cons, List.map_nil, List.flatten_cons, List.flatten_nil,
      List.append_nil]
    rw [List.flatten_eq_nil_iff]
    intro l hl
    rw [List.mem_map] at hl
    obtain ⟨t, ht, rfl⟩ := hl
    unfold Track.dispatch
    cases t.target with
    | none => rfl
    | some nd =>
      rw [hprev]
      exact trackDispatch_top_prev t.events ⊤ (hfin t ht)

unseal Rat.add Rat.mul Rat.sub Rat.inv in
/-- Counterexample to C2 as stated: immediately after `stop()` the next
quantum step resynchronises `curTime` to the `Infinity` sentinel and
dispatches the window `[prevTime, ∞)`, which delivers the pending event at
time `5` — so not every post-stop dispatch window is empty. -/
theorem stop_silences_counterexample :
    (genAudioStep 1 ⟨⟨some [0],
        [⟨some 0, [⟨((5 : ℚ) : Time), .noteOff 60⟩]⟩],
        ⊤, ((0 : ℚ) : Time), ((0 : ℚ) : Time), 140, 4, 4⟩,
        ((0 : ℚ) : Time), ((0 : ℚ) : Time)⟩).2
      = [((⊤ : Time), ((0 : ℚ) : Time), [⟨((5 : ℚ) : Time), .noteOff 60⟩])] := by
  decide

unseal Rat.add Rat.mul Rat.sub Rat.inv in
/-- Witness for C2: `stop()` on a piece with nodes `[3, 7]` delivers
AllNotesOff to both and sets the sentinel; a state with `playTime` and
`prevTime` both at the sentinel delivers nothing in its next quantum
step. -/
theorem stop_silences_witness :
    (Piece.stop ⟨some [3, 7], [], ((1 : ℚ) : Time), ((0 : ℚ) : Time),
        ((0 : ℚ) : Time), 140, 4, 4⟩).1.playTime = ⊤ ∧
    (Piece.stop ⟨some [3, 7], [], ((1 : ℚ) : Time), ((0 : ℚ) : Time),
        ((0 : ℚ) : Time), 140, 4, 4⟩).2
      = [(3, EvtData.allNotesOff), (7, EvtData.allNotesOff)] ∧
    ((genAudioStep 1 ⟨⟨some [0],
        [⟨some 0, [⟨((5 : ℚ) : Time), .noteOff 60⟩]⟩],
        ⊤, ((0 : ℚ) : Time), ⊤, 140, 4, 4⟩,
        ⊤, ((0 : ℚ) : Time)⟩).2.map (fun c => c.2.2)).flatten = [] := by
  have h := stop_silences
    ⟨some [3, 7], [], ((1 : ℚ) : Time), ((0 : ℚ) : Time),
      ((0 : ℚ) : Time), 140, 4, 4⟩ 1
    ⟨⟨some [0], [⟨some 0, [⟨((5 : ℚ) : Time), .noteOff 60⟩]⟩],
      ⊤, ((0 : ℚ) : Time), ⊤, 140, 4, 4⟩, ⊤, ((0 : ℚ) : Time)⟩
  exact ⟨h.1, h.2.1 [3, 7] rfl, (h.2.2 rfl).2.2.2 rfl (by decide)⟩

/-! ### The note model: round trips, range checks, scales -/

/-- Counterexample to C3 as stated: for `n = 0` the name is `"C-1"`
(octave `-1`), which `Note.nameToNo` rejects (its regular expression has
no sign and a single octave digit), so the round trip fails for every
`n < 12`. -/
theorem name_roundtrip_counterexample :
    getName 0 = "C-1" ∧ nameToNo (getName 0) = none := by
  exact ⟨by decide, by decide⟩

/-- Claim C3 (amended): for every pitch number `n` with `12 ≤ n < 128`
(octave `≥ 0`), constructing the note, taking its name and parsing the
name yields the same note number again. -/
theorem name_roundtrip :
    ∀ n : Fin 128, 12 ≤ n.val → nameToNo (getName n.val) = some n.val := by
  decide

/-- Witness for C3 at `n = 60` (middle C, name `"C4"`). -/
theorem name_roundtrip_witness : nameToNo (getName 60) = some 60 :=
  name_roundtrip ⟨60, by decide⟩ (by decide)

/-- Claim C4 (code bug): `Note.nameToNo "B9"` computes `131`, outside
`[0, 128)`, and its final assert `noteNo >= 0 || noteNo < NUM_NOTES`
passes anyway because of the `||`; the `Note` constructor performs no
range check of its own, so the out-of-range note is interned without an
`InvalidNoteNumber` failure.  `offset`/`shift` do enforce the range. -/
theorem note_range_check_bug :
    nameToNo "B9" = some 131 ∧ ¬((131 : Int) < NUM_NOTES) ∧
    noteOffset 120 10 = none ∧ noteShift 120 1 = none ∧
    noteOffset (-1) 0 = none ∧ noteOffset 60 7 = some 67 :=
  ⟨by decide, by decide, by rfl, by rfl, by rfl, by rfl⟩

/-! ### Scale generation -/

lemma noteOffset_ok {a b c : Int} (h : noteOffset a b = some c) : c = a + b := by
  unfold noteOffset at h
  by_cases hc : 0 ≤ a + b ∧ a + b < NUM_NOTES
  · rw [if_pos hc] at h
    exact (Option.some.inj h).symm
  · rw [if_neg hc] at h
    exact absurd h (by simp)

lemma specChain_length : ∀ (iv : List Nat) (s : Int),
    (specChain s iv).length = iv.length := by
  intro iv
  induction iv with
  | nil => intro sv; rfl
  | cons i rest ih => intro sv; simp [specChain, ih]

lemma chainFrom_ok : ∀ (iv : List Nat) (prev : Int) (l : List Int),
    chainFrom prev iv = .ok l → l = specChain prev iv := by
  intro iv
  induction iv with
  | nil =>
    intro prev l h
    simp only [chainFrom, Except.ok.injEq] at h
    subst h
    rfl
  | cons i rest ih =>
    intro prev l h
    cases hoff : noteOffset prev (i : Int) with
    | none => simp [chainFrom, hoff] at h
    | some nxt =>
      cases hch : chainFrom nxt rest with
      | error e => simp [chainFrom, hoff, hch] at h
      | ok l2 =>
        simp only [chainFrom, hoff, hch, Except.ok.injEq] at h
        subst h
        rw [specChain, ← noteOffset_ok hoff, ih nxt l2 hch]

lemma genOcts_ok : ∀ (count octNo : Nat) (root : Int) (iv : List Nat)
    (l : List Int), genOcts root iv count octNo = .ok l →
    l = specOcts root iv octNo count ∧ l.length = count * (iv.length + 1) := by
  intro count
  induction count with
  | zero =>
    intro octNo root iv l h
    simp only [genOcts, Except.ok.injEq] at h
    subst h
    exact ⟨rfl, by simp [specOcts]⟩
  | succ k ih =>
    intro octNo root iv l h
    cases hsh : noteShift root (octNo : Int) with
    | none => simp [genOcts, hsh] at h
    | some octRoot =>
      cases hch : chainFrom octRoot iv with
      | error e => simp [genOcts, hsh, hch] at h
      | ok block =>
        cases hrest : genOcts root iv k (octNo + 1) with
        | error e => simp [genOcts, hsh, hch, hrest] at h
        | ok rest =>
          simp only [genOcts, hsh, hch, hrest, Except.ok.injEq] at h
          subst h
          have hor : octRoot = root + 12 * (octNo : Int) := by
            unfold noteShift NOTES_PER_OCTAVE at hsh
            have := noteOffset_ok hsh
            omega
          obtain ⟨hrspec, hrlen⟩ := ih (octNo + 1) root iv rest hrest
          constructor
          · rw [specOcts, ← hor, chainFrom_ok iv octRoot block hch, hrspec,
              List.cons_append]
          · have hblen : block.length = iv.length := by
              rw [chainFrom_ok iv octRoot block hch, specChain_length]
            simp only [List.length_cons, List.length_append, hblen, hrlen]
            ring

/-- Claim C8 (amended): `genScale` fails with `UnknownScale` exactly when
the scale name has no interval pattern; whenever it returns a list (i.e.
no intermediate offset left `[0, 128)`, otherwise it fails with
`InvalidNoteNumber`), that list is the root of each octave followed by the
interval-chained notes, closed by the note exactly `numOctaves` octaves
above the root, of length `numOctaves * patternLength + numOctaves + 1`;
in particular `genScale(note(60), "major", 1)` yields exactly 8 notes,
strictly ascending. -/
theorem genScale_spec :
    (∀ (r : Int) (k : Nat) (sc : String), scaleIntervs sc = none →
        genScale r sc k = .error .unknownScale) ∧
    (∀ (r : Int) (sc : String) (k : Nat) (iv : List Nat) (l : List Int),
        scaleIntervs sc = some iv → genScale r sc k = .ok l →
        l = specScale r iv k ∧ l.length = k * iv.length + k + 1) ∧
    genScale 60 "major" 1 = .ok [60, 62, 64, 65, 67, 69, 71, 72] ∧
    List.Pairwise (· < ·) ([60, 62, 64, 65, 67, 69, 71, 72] : List Int) := by
  refine ⟨?_, ?_, by rfl, by decide⟩
  · intro r k sc hn
    simp [genScale, hn]
  · intro r sc k iv l hiv h
    cases hoc : genOcts r iv k 0 with
    | error e => simp [genScale, hiv, hoc] at h
    | ok notes =>
      cases hcl : noteShift r (k : Int) with
      | none => simp [genScale, hiv, hoc, hcl] at h
      | some closing =>
        simp only [genScale, hiv, hoc, hcl, Except.ok.injEq] at h
        subst h
        obtain ⟨hspec, hlen⟩ := genOcts_ok k 0 r iv notes hoc
        have hclv : closing = r + 12 * (k : Int) := by
          unfold noteShift NOTES_PER_OCTAVE at hcl
          have := noteOffset_ok hcl
          omega
        constructor
        · rw [specScale, hspec, hclv]
        · simp only [List.length_append, List.length_cons, List.length_nil,
            hlen]
          ring

/-- Counterexample to C8 as stated: for a known scale the function does
not always return a sequence — with root `120` the second step of the
major pattern would reach `129`, so `offset` fails and the whole call
fails with `InvalidNoteNumber` instead of returning an 8-note sequence. -/
theorem genScale_range_counterexample :
    genScale 120 "major" 1 = .error .invalidNoteNumber := by
  rfl

/-- Witness for C8: an unknown scale name fails with `UnknownScale`, and
the 8-note major scale on root 60 has the claimed shape and length. -/
theorem genScale_spec_witness :
    genScale 60 "dorian" 1 = .error .unknownScale ∧
    ([60, 62, 64, 65, 67, 69, 71, 72] : List Int)
      = specScale 60 [2, 2, 1, 2, 2, 2] 1 ∧
    ([60, 62, 64, 65, 67, 69, 71, 72] : List Int).length
      = 1 * [2, 2, 1, 2, 2, 2].length + 1 + 1 :=
  ⟨genScale_spec.1 60 1 "dorian" (by rfl),
   (genScale_spec.2.1 60 "major" 1 [2, 2, 1, 2, 2, 2]
     [60, 62, 64, 65, 67, 69, 71, 72] (by rfl) (by rfl)).1,
   (genScale_spec.2.1 60 "major" 1 [2, 2, 1, 2, 2, 2]
     [60, 62, 64, 65, 67, 69, 71, 72] (by rfl) (by rfl)).2⟩

/-! ### The Overdrive distortion node -/

/-- Claim C9 (amended): with `gain > 0`, `threshold ≥ 0` and
`factor > 0`, each sample is passed through as `s * gain` when
`|s * gain| ≤ threshold`, and otherwise the output has magnitude
`(|s * gain| - d) + d / factor` with `d = |s * gain| - threshold` and the
sign of the input; when the input port has no data the output buffer is
returned unmodified for the whole quantum. -/
theorem distortion_spec (od : Overdrive) (s0 : ℚ)
    (hg : 0 < od.gain) (ht : 0 ≤ od.threshold) (hf : 0 < od.factor) :
    (|s0 * od.gain| ≤ od.threshold → distortSample od s0 = s0 * od.gain) ∧
    (od.threshold < |s0 * od.gain| →
      |distortSample od s0|
        = (|s0 * od.gain| - (|s0 * od.gain| - od.threshold))
          + (|s0 * od.gain| - od.threshold) / od.factor ∧
      (0 < s0 → 0 < distortSample od s0) ∧
      (s0 < 0 → distortSample od s0 < 0)) ∧
    (∀ outBuf : List ℚ, Overdrive.update od none outBuf = outBuf) := by
  refine ⟨?_, ?_, fun _ => rfl⟩
  · intro hle
    unfold distortSample
    rw [if_neg (by simp only [not_lt]; linarith)]
  · intro hgt
    have hd : 0 < |s0 * od.gain| - od.threshold := by linarith
    have hval : 0 < (|s0 * od.gain| - (|s0 * od.gain| - od.threshold))
        + (1 / od.factor) * (|s0 * od.gain| - od.threshold) := by
      have h1 : |s0 * od.gain| - (|s0 * od.gain| - od.threshold)
          = od.threshold := by ring
      rw [h1]
      have h2 : 0 < (1 / od.factor) * (|s0 * od.gain| - od.threshold) :=
        mul_pos (by positivity) hd
      linarith
    unfold distortSample
    rw [if_pos hd]
    refine ⟨?_, ?_, ?_⟩
    · by_cases hsg : s0 * od.gain > 0
      · rw [if_pos hsg, abs_of_pos hval]
        ring
      · rw [if_neg hsg, abs_neg, abs_of_pos hval]
        ring
    · intro hs0
      rw [if_pos (mul_pos hs0 hg)]
      exact hval
    · intro hs0
      have hsg : ¬(s0 * od.gain > 0) := by
        simp only [not_lt]
        exact le_of_lt (mul_neg_of_neg_of_pos hs0 hg)
      rw [if_neg hsg]
      linarith

unseal Rat.add Rat.mul Rat.sub Rat.inv in
/-- Counterexample to C9 as stated, for unrestricted parameters: with
`gain = -1` the sign of the output is opposite to the sign of the input
(input `1.0` gives `-0.85`); with `threshold = -1` an input of `0` gives
the non-zero output `1/2`; with `factor = -1` the output magnitude is `1`
while the claimed magnitude formula evaluates to `-1`. -/
theorem distortion_counterexample :
    (distortSample ⟨-1, 7 / 10, 2⟩ 1 = -(17 / 20) ∧ (0 : ℚ) < 1 ∧
      (-(17 / 20) : ℚ) < 0) ∧
    distortSample ⟨1, -1, 2⟩ 0 = 1 / 2 ∧
    (|distortSample ⟨1, 0, -1⟩ 1| = 1 ∧
      ((|(1 : ℚ) * 1| - (|(1 : ℚ) * 1| - 0)) + (|(1 : ℚ) * 1| - 0) / (-1 : ℚ)
        = -1)) := by
  refine ⟨⟨by decide, by decide, by decide⟩, by decide, by decide, ?_⟩
  decide

unseal Rat.add Rat.mul Rat.sub Rat.inv in
/-- Witness for C9, at `threshold = 0.7`, `factor = 2`, `gain = 1`: the
input `1.0` yields `0.85 = 0.7 + (1.0 - 0.7) / 2` with positive sign, and
an input below the threshold passes through unchanged; an absent input
leaves the output buffer `[3]` unmodified. -/
theorem distortion_spec_witness :
    |distortSample ⟨1, 7 / 10, 2⟩ 1|
      = (|(1 : ℚ) * 1| - (|(1 : ℚ) * 1| - 7 / 10))
        + (|(1 : ℚ) * 1| - 7 / 10) / 2 ∧
    (0 : ℚ) < distortSample ⟨1, 7 / 10, 2⟩ 1 ∧
    distortSample ⟨1, 7 / 10, 2⟩ 1 = 17 / 20 ∧
    distortSample ⟨1, 7 / 10, 2⟩ (1 / 2) = (1 / 2) * 1 ∧
    Overdrive.update ⟨1, 7 / 10, 2⟩ none [3] = [3] :=
  ⟨((distortion_spec ⟨1, 7 / 10, 2⟩ 1 (by decide) (by decide) (by decide)).2.1
      (by decide)).1,
   ((distortion_spec ⟨1, 7 / 10, 2⟩ 1 (by decide) (by decide) (by decide)).2.1
      (by decide)).2.1 (by decide),
   by decide,
   (distortion_spec ⟨1, 7 / 10, 2⟩ (1 / 2) (by decide) (by decide)
      (by decide)).1 (by decide),
   (distortion_spec ⟨1, 7 / 10, 2⟩ (1 / 2) (by decide) (by decide)
      (by decide)).2.2 [3]⟩

/-! ### The note-name grammar actually implemented by `nameToNo` -/

lemma matchAtL_eq_nosharp (l : List Char) (c d : Char)
    (h0 : l[0]? = some c) (hc : isNoteLetter c = true)
    (h1 : l[1]? = some d) (hd : isDigitCh d = true) :
    matchAtL l = some (⟨[c]⟩, digitVal d) := by
  rcases l with _ | ⟨x, _ | ⟨y, rest⟩⟩
  · simp at h0
  · simp at h1
  · simp only [List.getElem?_cons_zero, List.getElem?_cons_succ,
      Option.some.injEq] at h0 h1
    have hxl : isNoteLetter x = true := by rw [h0]; exact hc
    have hyd : isDigitCh y = true := by rw [h1]; exact hd
    have hds : ¬(y = '#') := by
      intro hcon
      rw [hcon] at hyd
      simp [isDigitCh] at hyd
    have hdd : ¬(d = '#') := h1 ▸ hds
    simp [matchAtL, hxl, hds, hyd, h0, h1, hc, hd, hdd]

lemma matchAtL_eq_sharp (l : List Char) (c d : Char)
    (h0 : l[0]? = some c) (hc : isNoteLetter c = true)
    (h1 : l[1]? = some '#') (h2 : l[2]? = some d) (hd : isDigitCh d = true) :
    matchAtL l = some (⟨[c, '#']⟩, digitVal d) := by
  rcases l with _ | ⟨x, _ | ⟨y, _ | ⟨z, rest⟩⟩⟩
  · simp at h0
  · simp at h1
  · simp at h2
  · simp only [List.getElem?_cons_zero, List.getElem?_cons_succ,
      Option.some.injEq] at h0 h1 h2
    have hxl : isNoteLetter x = true := by rw [h0]; exact hc
    have hzd : isDigitCh z = true := by rw [h2]; exact hd
    simp only [matchAtL, hxl, h1, hzd, h0, h2, if_true, if_pos rfl]
    simp [hc, hd]

lemma matchAtL_some_elim (l : List Char) (r : String × Nat)
    (h : matchAtL l = some r) :
    ∃ c, l[0]? = some c ∧ isNoteLetter c = true ∧
      ((∃ d, l[1]? = some d ∧ isDigitCh d = true ∧ r = (⟨[c]⟩, digitVal d)) ∨
       (∃ d, l[1]? = some '#' ∧ l[2]? = some d ∧ isDigitCh d = true ∧
          r = (⟨[c, '#']⟩, digitVal d))) := by
  rcases l with _ | ⟨x, _ | ⟨y, _ | ⟨z, rest⟩⟩⟩
  · simp [matchAtL] at h
  · simp [matchAtL] at h
  · by_cases hx : isNoteLetter x
    · by_cases hy : y = '#'
      · subst hy
        simp [matchAtL, hx] at h
      · by_cases hyd : isDigitCh y
        · simp only [matchAtL, hx, if_true, hy, if_false, hyd,
            Option.some.injEq] at h
          exact ⟨x, rfl, hx, Or.inl ⟨y, rfl, hyd, h.symm⟩⟩
        · simp [matchAtL, hx, hy, hyd] at h
    · simp [matchAtL, hx] at h
  · by_cases hx : isNoteLetter x
    · by_cases hy : y = '#'
      · subst hy
        by_cases hz : isDigitCh z
        · simp only [matchAtL, hx, if_true, if_pos rfl, hz,
            Option.some.injEq] at h
          exact ⟨x, rfl, hx, Or.inr ⟨z, by simp, by simp, hz, h.symm⟩⟩
        · simp [matchAtL, hx, hz] at h
      · by_cases hyd : isDigitCh y
        · simp only [matchAtL, hx, if_true, hy, if_false, hyd,
            Option.some.injEq] at h
          exact ⟨x, rfl, hx, Or.inl ⟨y, rfl, hyd, h.symm⟩⟩
        · simp [matchAtL, hx, hy, hyd] at h
    · simp [matchAtL, hx] at h

lemma matchSpecHead_iff (l : List Char) :
    matchSpecHead l ↔ ∃ r, matchAtL l = some r := by
  constructor
  · rintro ⟨⟨c, h0, hc⟩, hrest⟩
    rcases hrest with ⟨d, h1, hd⟩ | ⟨h1, d, h2, hd⟩
    · exact ⟨_, matchAtL_eq_nosharp l c d h0 hc h1 hd⟩
    · exact ⟨_, matchAtL_eq_sharp l c d h0 hc h1 h2 hd⟩
  · rintro ⟨r, hr⟩
    obtain ⟨c, h0, hc, hrest⟩ := matchAtL_some_elim l r hr
    refine ⟨⟨c, h0, hc⟩, ?_⟩
    rcases hrest with ⟨d, h1, hd, _⟩ | ⟨d, h1, h2, hd, _⟩
    · exact Or.inl ⟨d, h1, hd⟩
    · exact Or.inr ⟨h1, d, h2, hd⟩

lemma matchAtL_none_iff (l : List Char) :
    matchAtL l = none ↔ ¬ matchSpecHead l := by
  rw [matchSpecHead_iff]
  cases hm : matchAtL l with
  | none => simp
  | some r => simp [hm]

lemma firstMatchL_some_iff : ∀ (l : List Char) (r : String × Nat),
    firstMatchL l = some r ↔
    ∃ i, (∀ j, j < i → matchAtL (l.drop j) = none) ∧
      matchAtL (l.drop i) = some r := by
  intro l
  induction l with
  | nil =>
    intro r
    simp [firstMatchL, matchAtL]
  | cons c rest ih =>
    intro r
    cases hm : matchAtL (c :: rest) with
    | some r2 =>
      simp only [firstMatchL, hm]
      constructor
      · intro h
        refine ⟨0, fun j hj => absurd hj (Nat.not_lt_zero j), ?_⟩
        rw [List.drop_zero, hm]
        exact h
      · rintro ⟨i, hbef, hi⟩
        cases i with
        | zero =>
          rw [List.drop_zero, hm] at hi
          exact hi
        | succ i2 =>
          have h0 := hbef 0 (Nat.succ_pos _)
          rw [List.drop_zero, hm] at h0
          exact absurd h0 (by simp)
    | none =>
      simp only [firstMatchL, hm]
      rw [ih r]
      constructor
      · rintro ⟨i, hbef, hi⟩
        refine ⟨i + 1, ?_, hi⟩
        intro j hj
        cases j with
        | zero =>
          rw [List.drop_zero]
          exact hm
        | succ j2 => exact hbef j2 (by omega)
      · rintro ⟨i, hbef, hi⟩
        cases i with
        | zero =>
          rw [List.drop_zero, hm] at hi
          exact absurd hi (by simp)
        | succ i2 =>
          refine ⟨i2, ?_, hi⟩
          intro j hj
          exact hbef (j + 1) (by omega)

lemma firstMatchL_none_imp : ∀ (l : List Char), firstMatchL l = none →
    ∀ i, matchAtL (l.drop i) = none := by
  intro l
  induction l with
  | nil =>
    intro _ i
    simp [matchAtL]
  | cons c rest ih =>
    intro h i
    cases hm : matchAtL (c :: rest) with
    | some r2 =>
      rw [firstMatchL, hm] at h
      exact absurd h (by simp)
    | none =>
      rw [firstMatchL, hm] at h
      cases i with
      | zero =>
        rw [List.drop_zero]
        exact hm
      | succ i2 => exact ih h i2

lemma matchResult_iff_of_firstMatch (l : List Char) (n : Nat)
    (P : String) (oct : Nat) (hfm : firstMatchL l = some (P, oct)) :
    (∃ i, (∀ j, j < i → ¬ matchSpecHead (l.drop j)) ∧ matchResult (l.drop i) n)
      ↔ (∃ pc, NOTE_NAME_PC P = some pc ∧ n = (oct + 1) * 12 + pc) := by
  obtain ⟨i0, hbef0, hm0⟩ := (firstMatchL_some_iff l (P, oct)).mp hfm
  constructor
  · rintro ⟨i, hbef, hres⟩
    obtain ⟨c, h0, hc, hrest⟩ := hres
    have hmi : ∃ ri, matchAtL (l.drop i) = some ri := by
      rcases hrest with ⟨d, pc, h1, hd, hpc, hn⟩ | ⟨d, pc, h1, h2, hd, hpc, hn⟩
      · exact ⟨_, matchAtL_eq_nosharp _ c d h0 hc h1 hd⟩
      · exact ⟨_, matchAtL_eq_sharp _ c d h0 hc h1 h2 hd⟩
    have hii0 : i = i0 := by
      by_contra hne
      rcases Nat.lt_or_ge i i0 with hlt | hge
      · obtain ⟨ri, hri⟩ := hmi
        rw [hbef0 i hlt] at hri
        exact absurd hri (by simp)
      · have hlt0 : i0 < i := by omega
        have := hbef i0 hlt0
        rw [matchSpecHead_iff] at this
        exact this ⟨(P, oct), hm0⟩
    subst hii0
    rcases hrest with ⟨d, pc, h1, hd, hpc, hn⟩ | ⟨d, pc, h1, h2, hd, hpc, hn⟩
    · have heq := (matchAtL_eq_nosharp _ c d h0 hc h1 hd).symm.trans hm0
      obtain ⟨hP, hoct⟩ := Prod.mk.injEq .. ▸ Option.some.inj heq
      exact ⟨pc, by rw [← hP]; exact hpc, by rw [← hoct]; exact hn⟩
    · have heq := (matchAtL_eq_sharp _ c d h0 hc h1 h2 hd).symm.trans hm0
      obtain ⟨hP, hoct⟩ := Prod.mk.injEq .. ▸ Option.some.inj heq
      exact ⟨pc, by rw [← hP]; exact hpc, by rw [← hoct]; exact hn⟩
  · rintro ⟨pc, hpc, hn⟩
    refine ⟨i0, ?_, ?_⟩
    · intro j hj
      rw [← matchAtL_none_iff]
      exact hbef0 j hj
    · obtain ⟨c, h0, hc, hrest⟩ := matchAtL_some_elim _ _ hm0
      refine ⟨c, h0, hc, ?_⟩
      rcases hrest with ⟨d, h1, hd, hr⟩ | ⟨d, h1, h2, hd, hr⟩
      · obtain ⟨hP, hoct⟩ := Prod.mk.injEq .. ▸ hr
        exact Or.inl ⟨d, pc, h1, hd, by rw [← hP]; exact hpc,
          by rw [← hoct]; exact hn⟩
      · obtain ⟨hP, hoct⟩ := Prod.mk.injEq .. ▸ hr
        exact Or.inr ⟨d, pc, h1, h2, hd, by rw [← hP]; exact hpc,
          by rw [← hoct]; exact hn⟩

/-- Claim C5 (amended): `Note.nameToNo` does not implement the anchored
signed grammar claimed by the specification; it scans for the first
position where `/([A-G]#?)([0-9])/i` matches (one pitch letter of either
case, an optional `#`, one single octave digit, no sign, anywhere in the
string).  `nameToNo name = some n` holds exactly when such a first match
exists, its captured name part (with original case) is one of the twelve
upper-case `NOTE_NAME_PC` keys with pitch class `pc`, and
`n = (octaveDigit + 1) * 12 + pc`; every other string fails with
`InvalidNoteName`. -/
theorem nameToNo_characterization (s : String) (n : Nat) :
    nameToNo s = some n ↔
    ∃ i, (∀ j, j < i → ¬ matchSpecHead (s.toList.drop j)) ∧
      matchResult (s.toList.drop i) n := by
  unfold nameToNo
  cases hfm : firstMatchL s.toList with
  | none =>
    dsimp only
    constructor
    · intro h
      exact absurd h (by simp)
    · rintro ⟨i, hbef, hres⟩
      obtain ⟨c, h0, hc, hrest⟩ := hres
      have hnone := firstMatchL_none_imp s.toList hfm i
      rcases hrest with ⟨d, pc, h1, hd, hpc, hn⟩ | ⟨d, pc, h1, h2, hd, hpc, hn⟩
      · rw [matchAtL_eq_nosharp _ c d h0 hc h1 hd] at hnone
        exact absurd hnone (by simp)
      · rw [matchAtL_eq_sharp _ c d h0 hc h1 h2 hd] at hnone
        exact absurd hnone (by simp)
  | some r =>
    obtain ⟨P, oct⟩ := r
    dsimp only
    rw [matchResult_iff_of_firstMatch s.toList n P oct hfm]
    cases hpc : NOTE_NAME_PC P with
    | none =>
      dsimp only
      constructor
      · intro h
        exact absurd h (by simp)
      · rintro ⟨pc, hpc2, _⟩
        exact absurd hpc2 (by simp)
    | some pc =>
      dsimp only
      rw [if_pos (Or.inl (Int.natCast_nonneg _))]
      constructor
      · intro h
        exact ⟨pc, rfl, (Option.some.inj h).symm⟩
      · rintro ⟨pc2, hpc2, hn⟩
        obtain rfl := Option.some.inj hpc2
        rw [hn]

/-- Counterexample to C5 as stated: `"C-1"` matches the claimed grammar
`^[A-Ga-g]#?-?[0-9]+$` with a recognised letter yet parsing fails, while
`"XC4"` does not match the claimed grammar yet parses (as `C4 = 60`), and
`"C44"` parses as `60`, not as the claimed `(44 + 1) * 12 + 0`. -/
theorem note_grammar_counterexample :
    specNoteGrammar "C-1" = true ∧ nameToNo "C-1" = none ∧
    specNoteGrammar "XC4" = false ∧ nameToNo "XC4" = some 60 ∧
    specNoteGrammar "C44" = true ∧ nameToNo "C44" = some 60 ∧
    (60 : Nat) ≠ (44 + 1) * 12 + 0 := by
  decide

/-- Witness for C5: parsing `"XC4"` succeeds with note number `60`, so by
the characterization the first match of the unanchored pattern (at
position 1) produces `60`. -/
theorem nameToNo_characterization_witness :
    ∃ i, (∀ j, j < i → ¬ matchSpecHead (("XC4".toList).drop j)) ∧
      matchResult (("XC4".toList).drop i) 60 :=
  (nameToNo_characterization "XC4" 60).mp (by decide)

end MusicToy
